import Mathlib

/-!
Verification of the ishare2-org/mirrors catalog pipeline.

The development shallowly embeds the data model and the operations of the
pipeline scripts (`sort.py`, `gen_mirrors.py`, `utils/check_dupes.py`,
`scripts/qemu/index.py`, `scripts/dynamips/index.py`):

* JSON values are the mutual inductive `JVal`/`JArr`/`JObj` (an object is an
  insertion-ordered association list, matching Python dict semantics with
  unique keys).
* Python strings are Lean `String`s; comparison is lexicographic on code
  points (`pyLe`), which is exactly Python `str` ordering.
* `list.sort` (a stable sort by a key function) is modelled by the stable
  `List.insertionSort`; any two stable sorts with respect to the same total
  preorder agree, so this is a faithful model of Timsort's result.
* Fallible steps return `Option` (`none` models a raised-and-caught
  exception, after which the script reports failure and writes nothing).
-/

/-- Python code-point comparison `a <= b` on lists of characters. -/
def pyLeChars : List Char → List Char → Bool
  | [], _ => true
  | _ :: _, [] => false
  | a :: as, b :: bs =>
    if a.toNat < b.toNat then true
    else if b.toNat < a.toNat then false
    else pyLeChars as bs

/-- Python string comparison `a <= b` (lexicographic on code points). -/
def pyLe (a b : String) : Bool :=
  pyLeChars a.data b.data

theorem pyLeChars_refl : ∀ a, pyLeChars a a = true := by
  intro a
  induction a with
  | nil => rfl
  | cons c cs ih => simp [pyLeChars, ih]

theorem pyLeChars_total : ∀ a b, pyLeChars a b = true ∨ pyLeChars b a = true := by
  intro a
  induction a with
  | nil => intro b; left; rfl
  | cons c cs ih =>
    intro b
    cases b with
    | nil => right; rfl
    | cons d ds =>
      by_cases h1 : c.toNat < d.toNat
      · left; simp [pyLeChars, h1]
      · by_cases h2 : d.toNat < c.toNat
        · right; simp [pyLeChars, h2]
        · have h3 : ¬ d.toNat < c.toNat := h2
          rcases ih ds with h | h
          · left; simp [pyLeChars, h1, h2, h]
          · right; simp [pyLeChars, h1, h3, h]

theorem pyLeChars_le_cases :
    ∀ {x y : Char} {xs ys : List Char}, pyLeChars (x :: xs) (y :: ys) = true →
      x.toNat < y.toNat ∨ (x.toNat = y.toNat ∧ pyLeChars xs ys = true) := by
  intro x y xs ys h
  simp only [pyLeChars] at h
  by_cases h1 : x.toNat < y.toNat
  · exact Or.inl h1
  · by_cases h2 : y.toNat < x.toNat
    · simp [h1, h2] at h
    · exact Or.inr ⟨by omega, by simpa [h1, h2] using h⟩

theorem pyLeChars_trans :
    ∀ a b c, pyLeChars a b = true → pyLeChars b c = true → pyLeChars a c = true := by
  intro a
  induction a with
  | nil => intro b c _ _; rfl
  | cons x xs ih =>
    intro b c hab hbc
    cases b with
    | nil => simp [pyLeChars] at hab
    | cons y ys =>
      cases c with
      | nil => simp [pyLeChars] at hbc
      | cons z zs =>
        rcases pyLeChars_le_cases hab with h1 | ⟨h1, h1r⟩ <;>
          rcases pyLeChars_le_cases hbc with h2 | ⟨h2, h2r⟩ <;>
          simp only [pyLeChars]
        · simp [show x.toNat < z.toNat by omega]
        · simp [show x.toNat < z.toNat by omega]
        · simp [show x.toNat < z.toNat by omega]
        · simp [show ¬ x.toNat < z.toNat by omega, show ¬ z.toNat < x.toNat by omega,
            ih ys zs h1r h2r]

/- JSON values, as read by `json.load`.  Objects are insertion-ordered
association lists with (in real data) unique keys, matching Python dicts. -/
mutual
inductive JVal : Type where
  | str : String → JVal
  | int : Int → JVal
  | bool : Bool → JVal
  | null : JVal
  | arr : JArr → JVal
  | obj : JObj → JVal

inductive JArr : Type where
  | anil : JArr
  | acons : JVal → JArr → JArr

inductive JObj : Type where
  | onil : JObj
  | ocons : String → JVal → JObj → JObj
end

def JArr.toList : JArr → List JVal
  | .anil => []
  | .acons v rest => v :: rest.toList

def JArr.ofList : List JVal → JArr
  | [] => .anil
  | v :: rest => .acons v (JArr.ofList rest)

theorem JArr.toList_ofList : ∀ l : List JVal, (JArr.ofList l).toList = l
  | [] => rfl
  | v :: rest => by simp [JArr.ofList, JArr.toList, JArr.toList_ofList rest]

/-- Python dict lookup `o[k]` / `o.get(k)` (first binding wins). -/
def JObj.lookup (k : String) : JObj → Option JVal
  | .onil => none
  | .ocons k1 v rest => if k1 = k then some v else rest.lookup k

/-- Remove every binding of key `k` (on genuine dicts there is at most one). -/
def JObj.eraseKey (k : String) : JObj → JObj
  | .onil => .onil
  | .ocons k1 v rest =>
    if k1 = k then rest.eraseKey k else .ocons k1 v (rest.eraseKey k)

def JObj.toList : JObj → List (String × JVal)
  | .onil => []
  | .ocons k v rest => (k, v) :: rest.toList

/-!
Sort & ID Assigner (`sort.py`).

`process_file` parses a JSON file, dispatches on shape (a top-level mapping
containing one of the family keys `QEMU`/`IOL`/`DYNAMIPS` is "structured",
otherwise the data is treated as a flat list), sorts every entry sequence by
`entry['name']` with Python's stable `list.sort`, and re-stamps ids with the
dict literal `{"id": i, **entry}`.  Any exception is caught: the function
reports failure and the file is not rewritten.
-/

/-- The value of `entry['name']` when `entry` is a dict with a string there. -/
def entryNameOf (v : JVal) : Option String :=
  match v with
  | .obj o =>
    match o.lookup "name" with
    | some (.str s) => some s
    | _ => none
  | _ => none

/-- Sort key used by `entries.sort(key=lambda x: x['name'])`; total with a
default so that it can be used in a total comparator (processing only
succeeds when every entry really has a string name). -/
def sortKey (v : JVal) : String :=
  (entryNameOf v).getD ""

/-- The comparison Python's stable sort effectively uses on entries. -/
def entryRel (a b : JVal) : Prop :=
  pyLe (sortKey a) (sortKey b) = true

instance : DecidableRel entryRel :=
  fun a b => inferInstanceAs (Decidable (pyLe (sortKey a) (sortKey b) = true))

instance : IsTotal JVal entryRel :=
  ⟨fun a b => pyLeChars_total (sortKey a).data (sortKey b).data⟩

instance : IsTrans JVal entryRel :=
  ⟨fun a b c => pyLeChars_trans (sortKey a).data (sortKey b).data (sortKey c).data⟩

/-- Python's `entries.sort(key=lambda x: x['name'])`: a stable sort by the
name key.  `List.insertionSort` is stable, and any stable sort with respect
to this total preorder yields the same list as Timsort. -/
def sortEntries (es : List JVal) : List JVal :=
  es.insertionSort entryRel

/-- The dict literal `{"id": i, **entry}`: the key `id` ends up first, and
its value is `entry["id"]` when that key already exists (a duplicate key in
a dict literal keeps the first position but the last value), else `i`. -/
def withId (n : Int) (v : JVal) : JVal :=
  match v with
  | .obj o =>
    match o.lookup "id" with
    | some oldv => .obj (.ocons "id" oldv (o.eraseKey "id"))
    | none => .obj (.ocons "id" (.int n) o)
  | v => v

/-- The loop `for i, entry in enumerate(entries, start=1): entries[i-1] = {"id": i, **entry}`. -/
def stampIds (n : Int) : List JVal → List JVal
  | [] => []
  | v :: vs => withId n v :: stampIds (n + 1) vs

/-- An entry Python can process without raising: a dict with a string name. -/
def isValidEntry (v : JVal) : Bool :=
  (entryNameOf v).isSome

def allValidEntries (es : List JVal) : Bool :=
  es.all isValidEntry

/-- `process_flat_data` on an in-memory entry list; `none` models a raised
`KeyError`/`TypeError` (entry without a usable name). -/
def tryProcessFlat (es : List JVal) : Option (List JVal) :=
  if allValidEntries es then some (stampIds 1 (sortEntries es)) else none

/-- One top-level value inside `process_structured_data`: `entries.sort`
raises `AttributeError` unless the value is a list. -/
def tryProcessVal (v : JVal) : Option JVal :=
  match v with
  | .arr a => (tryProcessFlat a.toList).map (fun es => .arr (JArr.ofList es))
  | _ => none

/-- `process_structured_data`: every top-level key's value is sorted and
stamped; the first exception aborts the whole call. -/
def tryProcessStructured : JObj → Option JObj
  | .onil => some .onil
  | .ocons k v rest =>
    match tryProcessVal v, tryProcessStructured rest with
    | some v1, some rest1 => some (.ocons k v1 rest1)
    | _, _ => none

def familyKeys : List String := ["QEMU", "IOL", "DYNAMIPS"]

/-- `any(key in data for key in ["QEMU", "IOL", "DYNAMIPS"])` on a dict. -/
def hasFamilyKey (o : JObj) : Bool :=
  familyKeys.any fun k => (o.lookup k).isSome

/-- On a list, `key in data` is element membership of the string. -/
def isFamilyStr (v : JVal) : Bool :=
  match v with
  | .str s => familyKeys.contains s
  | _ => false

/-- The body of `process_file` after `json.load` succeeded: `none` models an
exception during processing (caught; the file is then not rewritten). -/
def processData (data : JVal) : Option JVal :=
  match data with
  | .obj o => if hasFamilyKey o then (tryProcessStructured o).map .obj else none
  | .arr a =>
    if a.toList.any isFamilyStr then none
    else (tryProcessFlat a.toList).map fun es => .arr (JArr.ofList es)
  | _ => none

/-- `process_file`: the file's parse result goes in (`none` = invalid JSON),
and out come the returned flag and the file's parse state after the call
(the file is rewritten only on success). -/
def process_file (content : Option JVal) : Bool × Option JVal :=
  match content with
  | none => (false, none)
  | some d =>
    match processData d with
    | none => (false, some d)
    | some out => (true, some out)

/-! Helper lemmas about the sorter's building blocks. -/

theorem JObj.lookup_eraseKey_ne :
    ∀ (o : JObj) {k k1 : String}, k1 ≠ k → (o.eraseKey k).lookup k1 = o.lookup k1
  | .onil, _, _, _ => rfl
  | .ocons k2 v rest, k, k1, h => by
    by_cases h2 : k2 = k
    · subst h2
      simp [JObj.eraseKey, JObj.lookup, JObj.lookup_eraseKey_ne rest h, Ne.symm h]
    · by_cases h3 : k2 = k1
      · subst h3
        simp [JObj.eraseKey, JObj.lookup, h2]
      · simp [JObj.eraseKey, JObj.lookup, h2, h3, JObj.lookup_eraseKey_ne rest h]

theorem JObj.eraseKey_eraseKey :
    ∀ (o : JObj) (k : String), (o.eraseKey k).eraseKey k = o.eraseKey k
  | .onil, _ => rfl
  | .ocons k1 v rest, k => by
    by_cases h : k1 = k
    · simp [JObj.eraseKey, h, JObj.eraseKey_eraseKey rest k]
    · simp [JObj.eraseKey, h, JObj.eraseKey_eraseKey rest k]

theorem JObj.eraseKey_of_lookup_none :
    ∀ (o : JObj) (k : String), o.lookup k = none → o.eraseKey k = o
  | .onil, _, _ => rfl
  | .ocons k1 v rest, k, h => by
    by_cases h1 : k1 = k
    · simp [JObj.lookup, h1] at h
    · simp only [JObj.lookup, if_neg h1] at h
      simp [JObj.eraseKey, h1, JObj.eraseKey_of_lookup_none rest k h]

theorem entryNameOf_withId (n : Int) (v : JVal) :
    entryNameOf (withId n v) = entryNameOf v := by
  cases v with
  | obj o =>
    have hne : ("name" : String) ≠ "id" := by decide
    cases h : o.lookup "id" with
    | some oldv =>
      simp [withId, h, entryNameOf, JObj.lookup, hne, JObj.lookup_eraseKey_ne o hne]
    | none =>
      simp [withId, h, entryNameOf, JObj.lookup, hne]
  | str s => rfl
  | int n => rfl
  | bool b => rfl
  | null => rfl
  | arr a => rfl

theorem sortKey_withId (n : Int) (v : JVal) : sortKey (withId n v) = sortKey v := by
  simp [sortKey, entryNameOf_withId]

theorem isValidEntry_withId (n : Int) (v : JVal) :
    isValidEntry (withId n v) = isValidEntry v := by
  simp [isValidEntry, entryNameOf_withId]

theorem withId_withId (n : Int) (v : JVal) : withId n (withId n v) = withId n v := by
  cases v with
  | obj o =>
    cases h : o.lookup "id" with
    | some oldv =>
      simp [withId, h, JObj.lookup, JObj.eraseKey, JObj.eraseKey_eraseKey]
    | none =>
      simp [withId, h, JObj.lookup, JObj.eraseKey, JObj.eraseKey_of_lookup_none o "id" h]
  | str s => rfl
  | int n => rfl
  | bool b => rfl
  | null => rfl
  | arr a => rfl

theorem stampIds_stampIds (es : List JVal) : ∀ n, stampIds n (stampIds n es) = stampIds n es := by
  induction es with
  | nil => intro n; rfl
  | cons v vs ih => intro n; simp [stampIds, withId_withId, ih]

theorem map_sortKey_stampIds (es : List JVal) :
    ∀ n, (stampIds n es).map sortKey = es.map sortKey := by
  induction es with
  | nil => intro n; rfl
  | cons v vs ih => intro n; simp [stampIds, sortKey_withId, ih]

theorem mem_stampIds {w : JVal} {es : List JVal} :
    ∀ {n}, w ∈ stampIds n es → ∃ v ∈ es, ∃ m, w = withId m v := by
  induction es with
  | nil => intro n h; simp [stampIds] at h
  | cons v vs ih =>
    intro n h
    rcases List.mem_cons.mp h with h | h
    · exact ⟨v, List.mem_cons_self v vs, n, h⟩
    · rcases ih h with ⟨u, hu, m, hm⟩
      exact ⟨u, List.mem_cons_of_mem v hu, m, hm⟩

theorem pairwise_stampIds {es : List JVal} (h : es.Pairwise entryRel) :
    ∀ n, (stampIds n es).Pairwise entryRel := by
  induction es with
  | nil => intro n; exact List.Pairwise.nil
  | cons v vs ih =>
    intro n
    rcases List.pairwise_cons.mp h with ⟨hv, hvs⟩
    refine List.pairwise_cons.mpr ⟨?_, ih hvs (n + 1)⟩
    intro w hw
    rcases mem_stampIds hw with ⟨u, hu, m, hm⟩
    subst hm
    show pyLe (sortKey (withId n v)) (sortKey (withId m u)) = true
    rw [sortKey_withId, sortKey_withId]
    exact hv u hu

theorem allValidEntries_stampIds (es : List JVal) :
    ∀ n, allValidEntries (stampIds n es) = allValidEntries es := by
  induction es with
  | nil => intro n; rfl
  | cons v vs ih =>
    intro n
    have h2 := ih (n + 1)
    simp only [allValidEntries] at h2
    simp [stampIds, allValidEntries, List.all_cons, isValidEntry_withId, h2]

theorem allValidEntries_sortEntries (es : List JVal) :
    allValidEntries (sortEntries es) = allValidEntries es := by
  simp only [allValidEntries, sortEntries]
  by_cases h : ∀ v ∈ es, isValidEntry v = true
  · rw [List.all_eq_true.mpr fun v hv => h v ((List.mem_insertionSort entryRel).mp hv),
      List.all_eq_true.mpr h]
  · push_neg at h
    rcases h with ⟨v, hv, hnv⟩
    rw [List.all_eq_false.mpr ⟨v, (List.mem_insertionSort entryRel).mpr hv, by simpa using hnv⟩,
      List.all_eq_false.mpr ⟨v, hv, by simpa using hnv⟩]

/-! Stability of the stable sort, in filter form: elements that are tied
under the comparator keep their pre-sort relative order. -/

theorem filter_orderedInsert_of_rel {α : Type} (r : α → α → Prop) [DecidableRel r]
    (p : α → Bool) (a : α) :
    ∀ l : List α, p a = true → (∀ b ∈ l, p b = true → r a b) →
      (l.orderedInsert r a).filter p = a :: l.filter p := by
  intro l
  induction l with
  | nil => intro ha _; simp [List.orderedInsert, ha]
  | cons b bs ih =>
    intro ha hrel
    by_cases hr : r a b
    · simp [List.orderedInsert, hr, ha]
    · have hpb : p b = false := by
        cases hpb : p b with
        | false => rfl
        | true => exact absurd (hrel b (List.mem_cons_self b bs) hpb) hr
      simp [List.orderedInsert, hr, List.filter_cons, hpb,
        ih ha fun c hc hpc => hrel c (List.mem_cons_of_mem b hc) hpc]

theorem filter_orderedInsert_of_neg {α : Type} (r : α → α → Prop) [DecidableRel r]
    (p : α → Bool) (a : α) :
    ∀ l : List α, p a = false → (l.orderedInsert r a).filter p = l.filter p := by
  intro l
  induction l with
  | nil => intro ha; simp [List.orderedInsert, ha]
  | cons b bs ih =>
    intro ha
    by_cases hr : r a b
    · simp [List.orderedInsert, hr, List.filter_cons, ha]
    · simp [List.orderedInsert, hr, List.filter_cons, ih ha]

theorem filter_insertionSort {α : Type} (r : α → α → Prop) [DecidableRel r] (p : α → Bool) :
    ∀ l : List α, (∀ x ∈ l, ∀ y ∈ l, p x = true → p y = true → r x y) →
      (l.insertionSort r).filter p = l.filter p := by
  intro l
  induction l with
  | nil => intro _; rfl
  | cons a as ih =>
    intro h
    have ihh := ih fun x hx y hy hpx hpy =>
      h x (List.mem_cons_of_mem a hx) y (List.mem_cons_of_mem a hy) hpx hpy
    cases ha : p a with
    | true =>
      rw [List.insertionSort,
        filter_orderedInsert_of_rel r p a (as.insertionSort r) ha
          (fun b hb hpb => h a (List.mem_cons_self a as) b
            (List.mem_cons_of_mem a ((List.mem_insertionSort r).mp hb)) ha hpb),
        ihh]
      simp [List.filter_cons, ha]
    | false =>
      rw [List.insertionSort, filter_orderedInsert_of_neg r p a (as.insertionSort r) ha, ihh]
      simp [List.filter_cons, ha]

/-! Claim-side notions for C1: case-insensitive comparison, as the spec
words it (fold to a single case before comparing). -/

/-- Case folding as in Python's `str.lower` on ASCII names. -/
def toLowerStr (s : String) : String :=
  ⟨s.data.map Char.toLower⟩

/-- The spec's case-insensitive lexicographic comparison. -/
def ciLe (a b : String) : Bool :=
  pyLe (toLowerStr a) (toLowerStr b)

/-- Boolean check that consecutive elements satisfy `le`. -/
def chainLeB (le : String → String → Bool) : List String → Bool
  | [] => true
  | [_] => true
  | a :: b :: rest => le a b && chainLeB le (b :: rest)

/-- Names of the entries of a flat catalog value. -/
def namesOfCatalog (v : JVal) : List String :=
  match v with
  | .arr a => a.toList.map sortKey
  | _ => []

/-- The ids (integer-valued `id` fields) of the entries of a flat catalog. -/
def idInts (v : JVal) : List (Option Int) :=
  match v with
  | .arr a =>
    a.toList.map fun e =>
      match e with
      | .obj o =>
        match o.lookup "id" with
        | some (.int n) => some n
        | _ => none
      | _ => none
  | _ => []

/-- A flat catalog with names "B" and "a": Python's case-sensitive sort
keeps "B" (code point 66) before "a" (code point 97). -/
def exC1 : JVal :=
  .arr (JArr.ofList
    [.obj (.ocons "name" (.str "B") .onil),
     .obj (.ocons "name" (.str "a") .onil)])

/-- C1 is false as stated: the Sort & ID Assigner processes `exC1`
successfully, but the resulting name sequence ["B", "a"] is not sorted
under case-insensitive comparison (fold("B") = "b" > "a").  The comparison
in `sort.py` is `entry['name']` itself, with no case folding. -/
theorem C1_counterexample :
    (processData exC1).map namesOfCatalog = some ["B", "a"]
    ∧ chainLeB ciLe ["B", "a"] = false := by
  exact ⟨by decide, by decide⟩

/-- C1 (amended): within each sequence the Sort & ID Assigner sorts by
`name` under case-SENSITIVE (code point) lexicographic comparison; the sort
is stable (entries with equal names keep their pre-sort relative order),
the entries are only permuted (names are not altered), and id stamping
leaves the name sequence unchanged. -/
theorem C1_amended_case_sensitive_stable_sort :
    ∀ (es out : List JVal), tryProcessFlat es = some out →
      (out.map sortKey).Pairwise (fun a b => pyLe a b = true)
      ∧ (∀ s : String,
          (sortEntries es).filter (fun v => sortKey v == s)
            = es.filter (fun v => sortKey v == s))
      ∧ out.map sortKey = (sortEntries es).map sortKey
      ∧ (sortEntries es).Perm es := by
  intro es out h
  cases hv : allValidEntries es with
  | false => simp [tryProcessFlat, hv] at h
  | true =>
    simp only [tryProcessFlat, hv, if_pos] at h
    have hout : out = stampIds 1 (sortEntries es) := by
      cases h; rfl
    subst hout
    refine ⟨?_, ?_, map_sortKey_stampIds (sortEntries es) 1, List.perm_insertionSort entryRel es⟩
    · rw [map_sortKey_stampIds]
      exact List.pairwise_map.mpr (List.sorted_insertionSort entryRel es)
    · intro s
      refine filter_insertionSort entryRel (fun v => sortKey v == s) es ?_
      intro x _ y _ hpx hpy
      show pyLe (sortKey x) (sortKey y) = true
      rw [eq_of_beq hpx, eq_of_beq hpy]
      exact pyLeChars_refl s.data

/-- A flat catalog whose entries contain names only (so ties and order are
concrete); used to witness the amended C1. -/
def exC1b : List JVal :=
  [.obj (.ocons "name" (.str "b") .onil),
   .obj (.ocons "name" (.str "a") .onil)]

theorem C1_witness :
    ((stampIds 1 (sortEntries exC1b)).map sortKey).Pairwise (fun a b => pyLe a b = true)
    ∧ (sortEntries exC1b).Perm exC1b := by
  have h := C1_amended_case_sensitive_stable_sort exC1b (stampIds 1 (sortEntries exC1b)) rfl
  exact ⟨h.1, h.2.2.2⟩

/-- A flat catalog carrying stale ids from an earlier run: the entry named
"b" has id 2 and the entry named "a" has id 7. -/
def exC2 : JVal :=
  .arr (JArr.ofList
    [.obj (.ocons "id" (.int 2) (.ocons "name" (.str "b") .onil)),
     .obj (.ocons "id" (.int 7) (.ocons "name" (.str "a") .onil))])

/-- C2 fails on the code: after sorting, the stamped ids of `exC2` are
[7, 2], not [1, 2].  The dict literal `{"id": i, **entry}` lets the stale
`entry["id"]` override the freshly assigned rank, so ids of entries that
already carry an id are preserved, not overwritten. -/
theorem C2_code_evaluation :
    (processData exC2).map idInts = some [some 7, some 2]
    ∧ (processData exC2).map idInts ≠ some [some 1, some 2] := by
  exact ⟨by decide, by decide⟩

/-! Idempotence of the Sort & ID Assigner. -/

theorem tryProcessFlat_idem {es out : List JVal} (h : tryProcessFlat es = some out) :
    tryProcessFlat out = some out := by
  cases hv : allValidEntries es with
  | false => simp [tryProcessFlat, hv] at h
  | true =>
    simp only [tryProcessFlat, hv, if_pos] at h
    have hout : out = stampIds 1 (sortEntries es) := by cases h; rfl
    subst hout
    have hv2 : allValidEntries (stampIds 1 (sortEntries es)) = true := by
      rw [allValidEntries_stampIds, allValidEntries_sortEntries]; exact hv
    have hsorted : (stampIds 1 (sortEntries es)).Pairwise entryRel :=
      pairwise_stampIds (List.sorted_insertionSort entryRel es) 1
    have hss : sortEntries (stampIds 1 (sortEntries es)) = stampIds 1 (sortEntries es) :=
      List.Sorted.insertionSort_eq hsorted
    simp [tryProcessFlat, hv2, hss, stampIds_stampIds]

theorem isValidEntry_isObj {v : JVal} (h : isValidEntry v = true) : ∃ o, v = .obj o := by
  cases v with
  | obj o => exact ⟨o, rfl⟩
  | str s => simp [isValidEntry, entryNameOf] at h
  | int n => simp [isValidEntry, entryNameOf] at h
  | bool b => simp [isValidEntry, entryNameOf] at h
  | null => simp [isValidEntry, entryNameOf] at h
  | arr a => simp [isValidEntry, entryNameOf] at h

theorem isFamilyStr_withId {o : JObj} (n : Int) : isFamilyStr (withId n (.obj o)) = false := by
  cases h : o.lookup "id" with
  | some oldv => simp [withId, h, isFamilyStr]
  | none => simp [withId, h, isFamilyStr]

theorem any_isFamilyStr_stampIds {es : List JVal} (h : allValidEntries es = true) :
    ∀ n, (stampIds n es).any isFamilyStr = false := by
  induction es with
  | nil => intro n; rfl
  | cons v vs ih =>
    intro n
    simp only [allValidEntries, List.all_cons, Bool.and_eq_true] at h
    rcases isValidEntry_isObj h.1 with ⟨o, rfl⟩
    have ihh := ih (by simpa [allValidEntries] using h.2) (n + 1)
    simp [stampIds, List.any_cons, isFamilyStr_withId, ihh]

theorem tryProcessVal_idem {v v1 : JVal} (h : tryProcessVal v = some v1) :
    tryProcessVal v1 = some v1 := by
  cases v with
  | arr a =>
    simp only [tryProcessVal] at h
    cases hf : tryProcessFlat a.toList with
    | none => rw [hf] at h; simp at h
    | some es1 =>
      rw [hf] at h
      simp only [Option.map_some'] at h
      cases h
      simp [tryProcessVal, JArr.toList_ofList, tryProcessFlat_idem hf]
  | str s => simp [tryProcessVal] at h
  | int n => simp [tryProcessVal] at h
  | bool b => simp [tryProcessVal] at h
  | null => simp [tryProcessVal] at h
  | obj o => simp [tryProcessVal] at h

theorem tryProcessStructured_idem :
    ∀ {o o1 : JObj}, tryProcessStructured o = some o1 → tryProcessStructured o1 = some o1
  | .onil, o1, h => by
    simp only [tryProcessStructured] at h
    cases h; rfl
  | .ocons k v rest, o1, h => by
    simp only [tryProcessStructured] at h
    cases hv : tryProcessVal v with
    | none => rw [hv] at h; simp at h
    | some v1 =>
      cases hr : tryProcessStructured rest with
      | none => rw [hv, hr] at h; simp at h
      | some rest1 =>
        rw [hv, hr] at h
        cases h
        simp [tryProcessStructured, tryProcessVal_idem hv, tryProcessStructured_idem hr]

theorem tryProcessStructured_lookup_isSome :
    ∀ {o o1 : JObj}, tryProcessStructured o = some o1 →
      ∀ k, (o1.lookup k).isSome = (o.lookup k).isSome
  | .onil, o1, h => by
    simp only [tryProcessStructured] at h
    cases h; intro k; rfl
  | .ocons k0 v rest, o1, h => by
    simp only [tryProcessStructured] at h
    cases hv : tryProcessVal v with
    | none => rw [hv] at h; simp at h
    | some v1 =>
      cases hr : tryProcessStructured rest with
      | none => rw [hv, hr] at h; simp at h
      | some rest1 =>
        rw [hv, hr] at h
        cases h
        intro k
        by_cases hk : k0 = k
        · simp [JObj.lookup, hk]
        · simp [JObj.lookup, hk, tryProcessStructured_lookup_isSome hr k]

theorem hasFamilyKey_tryProcessStructured {o o1 : JObj}
    (h : tryProcessStructured o = some o1) : hasFamilyKey o1 = hasFamilyKey o := by
  simp [hasFamilyKey, familyKeys, List.any_cons, List.any_nil,
    tryProcessStructured_lookup_isSome h]

/-- C3: the Sort & ID Assigner is idempotent on every catalog it can
process, flat or keyed: reprocessing its own output returns that output
unchanged (hence the serialized file is byte-identical, since the model
carries full key order). -/
theorem C3_sort_idempotent :
    ∀ (d out : JVal), processData d = some out → processData out = some out := by
  intro d out h
  cases d with
  | obj o =>
    simp only [processData] at h
    cases hf : hasFamilyKey o with
    | false => rw [hf] at h; simp at h
    | true =>
      rw [hf] at h
      simp only [if_pos] at h
      cases hs : tryProcessStructured o with
      | none => rw [hs] at h; simp at h
      | some o1 =>
        rw [hs] at h
        simp only [Option.map_some'] at h
        cases h
        simp [processData, hasFamilyKey_tryProcessStructured hs, hf,
          tryProcessStructured_idem hs]
  | arr a =>
    simp only [processData] at h
    cases hany : a.toList.any isFamilyStr with
    | true => rw [hany] at h; simp at h
    | false =>
      rw [hany] at h
      simp only [Bool.false_eq_true, if_neg] at h
      cases hfl : tryProcessFlat a.toList with
      | none => rw [hfl] at h; simp at h
      | some es1 =>
        rw [hfl] at h
        simp only [Option.map_some'] at h
        cases h
        have hv : allValidEntries a.toList = true := by
          cases hv2 : allValidEntries a.toList with
          | false => simp [tryProcessFlat, hv2] at hfl
          | true => rfl
        have hes1 : es1 = stampIds 1 (sortEntries a.toList) := by
          simp only [tryProcessFlat, hv, if_pos] at hfl
          cases hfl; rfl
        have hnofam : es1.any isFamilyStr = false := by
          rw [hes1]
          exact any_isFamilyStr_stampIds (by rw [allValidEntries_sortEntries]; exact hv) 1
        simp [processData, JArr.toList_ofList, hnofam, tryProcessFlat_idem hfl]
  | str s => simp [processData] at h
  | int n => simp [processData] at h
  | bool b => simp [processData] at h
  | null => simp [processData] at h

/-- A small keyed catalog used to witness idempotence. -/
def exC3 : JVal :=
  .obj (.ocons "QEMU"
    (.arr (JArr.ofList [.obj (.ocons "name" (.str "x") .onil)])) .onil)

/-- What the Sort & ID Assigner produces from `exC3`. -/
def exC3out : JVal :=
  .obj (.ocons "QEMU"
    (.arr (JArr.ofList [.obj (.ocons "id" (.int 1) (.ocons "name" (.str "x") .onil))])) .onil)

theorem C3_witness : processData exC3out = some exC3out :=
  C3_sort_idempotent exC3 exC3out rfl

/-! C10: the structured branch touches the value of every top-level key. -/

def isArrB (v : JVal) : Bool :=
  match v with
  | .arr _ => true
  | _ => false

theorem tryProcessVal_none_of_not_arr {v : JVal} (h : isArrB v = false) :
    tryProcessVal v = none := by
  cases v with
  | arr a => simp [isArrB] at h
  | str s => rfl
  | int n => rfl
  | bool b => rfl
  | null => rfl
  | obj o => rfl

theorem tryProcessStructured_none_of_bad :
    ∀ (o : JObj) (kv : String × JVal), kv ∈ o.toList → isArrB kv.2 = false →
      tryProcessStructured o = none
  | .onil, kv, hm, _ => by simp [JObj.toList] at hm
  | .ocons k0 v0 rest, kv, hm, hbad => by
    rcases List.mem_cons.mp hm with h | h
    · subst h
      simp [tryProcessStructured, tryProcessVal_none_of_not_arr hbad]
    · rw [tryProcessStructured, tryProcessStructured_none_of_bad rest kv h hbad]
      cases tryProcessVal v0 <;> rfl

theorem tryProcessStructured_lookup_arr :
    ∀ {o o1 : JObj}, tryProcessStructured o = some o1 →
      ∀ (k : String) (a : JArr), o.lookup k = some (.arr a) →
        o1.lookup k = (tryProcessFlat a.toList).map (fun es => .arr (JArr.ofList es))
  | .onil, o1, h => by
    intro k a hk
    simp [JObj.lookup] at hk
  | .ocons k0 v0 rest, o1, h => by
    intro k a hk
    simp only [tryProcessStructured] at h
    cases hv : tryProcessVal v0 with
    | none => rw [hv] at h; simp at h
    | some v1 =>
      cases hr : tryProcessStructured rest with
      | none => rw [hv, hr] at h; simp at h
      | some rest1 =>
        rw [hv, hr] at h
        cases h
        by_cases hk0 : k0 = k
        · subst hk0
          simp only [JObj.lookup, if_pos rfl] at hk ⊢
          cases hk
          rw [← hv]
          rfl
        · simp only [JObj.lookup, if_neg hk0] at hk ⊢
          exact tryProcessStructured_lookup_arr hr k a hk

/-- C10: on a top-level mapping containing a family key, the Sort & ID
Assigner applies sort-and-stamp to the value of EVERY top-level key: any
top-level value that is not a list makes processing of the file fail (no
output is written), and in an all-list input the sequence under every key,
family or not, comes out sorted and id-stamped. -/
theorem C10_structured_all_keys :
    ∀ o : JObj, hasFamilyKey o = true →
      (∀ kv : String × JVal, kv ∈ o.toList → isArrB kv.2 = false →
        processData (.obj o) = none)
      ∧ (∀ out : JVal, processData (.obj o) = some out →
          ∀ (k : String) (a : JArr), o.lookup k = some (.arr a) →
            ∃ o1 : JObj, out = .obj o1
              ∧ o1.lookup k
                  = some (.arr (JArr.ofList (stampIds 1 (sortEntries a.toList))))
              ∧ allValidEntries a.toList = true) := by
  intro o hfam
  constructor
  · intro kv hm hbad
    simp [processData, hfam, tryProcessStructured_none_of_bad o kv hm hbad]
  · intro out hout k a hk
    simp only [processData, hfam, if_pos] at hout
    cases hs : tryProcessStructured o with
    | none => rw [hs] at hout; simp at hout
    | some o1 =>
      rw [hs] at hout
      simp only [Option.map_some'] at hout
      cases hout
      have hv : allValidEntries a.toList = true := by
        cases hv2 : allValidEntries a.toList with
        | true => rfl
        | false =>
          have hl := tryProcessStructured_lookup_arr hs k a hk
          rw [show tryProcessFlat a.toList = none by simp [tryProcessFlat, hv2]] at hl
          have hsome := tryProcessStructured_lookup_isSome hs k
          rw [hk, hl] at hsome
          simp at hsome
      have hl := tryProcessStructured_lookup_arr hs k a hk
      exact ⟨o1, rfl, by rw [hl]; simp [tryProcessFlat, hv], hv⟩

/-- A mapping with a family key and a non-list field, as the real merged
catalogs have (`schema_version` alongside `QEMU`). -/
def exC10a : JObj :=
  .ocons "schema_version" (.str "1.0")
    (.ocons "QEMU" (.arr (JArr.ofList [.obj (.ocons "name" (.str "x") .onil)])) .onil)

def exC10bEntries : JArr :=
  JArr.ofList [.obj (.ocons "name" (.str "x") .onil)]

/-- An all-list mapping with a family key (`IOL`) and a non-family key
(`FOO`). -/
def exC10b : JObj :=
  .ocons "FOO" (.arr exC10bEntries) (.ocons "IOL" (.arr .anil) .onil)

/-- The processed form of `exC10b`: both keys' sequences stamped. -/
def exC10bOut : JVal :=
  .obj (.ocons "FOO"
    (.arr (JArr.ofList [.obj (.ocons "id" (.int 1) (.ocons "name" (.str "x") .onil))]))
    (.ocons "IOL" (.arr .anil) .onil))

theorem C10_witness :
    processData (.obj exC10a) = none
    ∧ (∃ o1 : JObj, exC10bOut = .obj o1
        ∧ o1.lookup "FOO"
            = some (.arr (JArr.ofList (stampIds 1 (sortEntries exC10bEntries.toList))))
        ∧ allValidEntries exC10bEntries.toList = true) := by
  constructor
  · exact (C10_structured_all_keys exC10a (by decide)).1 ("schema_version", .str "1.0")
      (List.mem_cons_self _ _) (by decide)
  · exact (C10_structured_all_keys exC10b (by decide)).2 exC10bOut rfl "FOO" exC10bEntries rfl

/-!
Mirror URL Rewriter (`gen_mirrors.py`).

`update_urls_in_data` walks the JSON tree; at any dict, a key literally
named `url` with a string value gets `value.replace(OLD_BASE_URL,
NEW_BASE_URL)`; everything else is traversed recursively and otherwise
left as is.
-/

def OLD_BASE_URL : String := "labhub.eu.org/api/raw/?path=/"

def NEW_BASE_URL : String := "drive.labhub.eu.org/0:/"

/-- Python `pat in s` (substring containment) on character lists. -/
def containsSub (pat : List Char) : List Char → Bool
  | [] => pat.isEmpty
  | c :: rest => pat.isPrefixOf (c :: rest) || containsSub pat rest

/-- Helper for `str.replace`: scans left to right; a positive skip count
means we are inside an already-replaced occurrence. -/
def replAux (pat rep : List Char) : Nat → List Char → List Char
  | _, [] => []
  | 0, c :: rest =>
    if pat ≠ [] ∧ pat.isPrefixOf (c :: rest) then
      rep ++ replAux pat rep (pat.length - 1) rest
    else
      c :: replAux pat rep 0 rest
  | Nat.succ k, _ :: rest => replAux pat rep k rest

/-- Python `s.replace(old, new)` for a non-empty pattern: every
non-overlapping occurrence, scanning left to right. -/
def pyReplace (old new s : String) : String :=
  ⟨replAux old.data new.data 0 s.data⟩

theorem replAux_of_not_contains {pat rep : List Char} :
    ∀ s : List Char, containsSub pat s = false → replAux pat rep 0 s = s := by
  intro s
  induction s with
  | nil => intro _; rfl
  | cons c rest ih =>
    intro h
    simp only [containsSub, Bool.or_eq_false_iff] at h
    rw [replAux, if_neg (fun hand => by rw [hand.2] at h; exact absurd h.1 (by simp)), ih h.2]


mutual
def updateUrls (old new : String) : JVal → JVal
  | .obj o => .obj (updateUrlsObj old new o)
  | .arr a => .arr (updateUrlsArr old new a)
  | .str s => .str s
  | .int n => .int n
  | .bool b => .bool b
  | .null => .null

def updateUrlsArr (old new : String) : JArr → JArr
  | .anil => .anil
  | .acons v rest => .acons (updateUrls old new v) (updateUrlsArr old new rest)

/- One binding inside the dict loop: `if key == "url" and isinstance(value,
str): data[key] = value.replace(OLD_BASE_URL, NEW_BASE_URL) else:
update_urls_in_data(value)`. -/
def updateUrlsField (old new k : String) : JVal → JVal
  | .str s => if k = "url" then .str (pyReplace old new s) else .str s
  | .int n => .int n
  | .bool b => .bool b
  | .null => .null
  | .arr a => .arr (updateUrlsArr old new a)
  | .obj o => .obj (updateUrlsObj old new o)

def updateUrlsObj (old new : String) : JObj → JObj
  | .onil => .onil
  | .ocons k v rest =>
    .ocons k (updateUrlsField old new k v) (updateUrlsObj old new rest)
end

/-- `update_urls_in_data` with the script's configured prefixes. -/
def update_urls_in_data (v : JVal) : JVal :=
  updateUrls OLD_BASE_URL NEW_BASE_URL v


/- Spec-side relation, following the claim's words: `urlOnlyDiff old new v w`
holds when `w` has exactly the shape, keys and values of `v`, except that a
string value sitting under a mapping key literally named `url` that
contains `old` as a substring is allowed to differ. -/
mutual
def urlOnlyDiff (old new : String) : JVal → JVal → Bool
  | .str s, .str t => s == t
  | .int a, .int b => a == b
  | .bool a, .bool b => a == b
  | .null, .null => true
  | .arr xs, .arr ys => urlOnlyDiffArr old new xs ys
  | .obj xs, .obj ys => urlOnlyDiffObj old new xs ys
  | _, _ => false

def urlOnlyDiffArr (old new : String) : JArr → JArr → Bool
  | .anil, .anil => true
  | .acons v vs, .acons w ws => urlOnlyDiff old new v w && urlOnlyDiffArr old new vs ws
  | _, _ => false

/- One binding of an object: a `url`-keyed string containing the old prefix
may differ arbitrarily; every other value must be unchanged up to
(recursively) the same rule. -/
def urlOnlyDiffField (old new k : String) : JVal → JVal → Bool
  | .str s, w =>
    if k = "url" then
      if containsSub old.data s.data then true
      else
        match w with
        | .str t => s == t
        | _ => false
    else
      match w with
      | .str t => s == t
      | _ => false
  | .int a, w => urlOnlyDiff old new (.int a) w
  | .bool b, w => urlOnlyDiff old new (.bool b) w
  | .null, w => urlOnlyDiff old new .null w
  | .arr xs, w => urlOnlyDiff old new (.arr xs) w
  | .obj xs, w => urlOnlyDiff old new (.obj xs) w

def urlOnlyDiffObj (old new : String) : JObj → JObj → Bool
  | .onil, .onil => true
  | .ocons k v rest, .ocons k2 w rest2 =>
    (k == k2) && urlOnlyDiffField old new k v w && urlOnlyDiffObj old new rest rest2
  | _, _ => false
end

mutual
theorem urlFrame_val (old new : String) :
    ∀ v : JVal, urlOnlyDiff old new v (updateUrls old new v) = true
  | .str s => by rw [updateUrls, urlOnlyDiff]; exact beq_self_eq_true s
  | .int n => by rw [updateUrls, urlOnlyDiff]; exact beq_self_eq_true n
  | .bool b => by rw [updateUrls, urlOnlyDiff]; exact beq_self_eq_true b
  | .null => by rw [updateUrls, urlOnlyDiff]
  | .arr a => by rw [updateUrls, urlOnlyDiff]; exact urlFrame_arr old new a
  | .obj o => by rw [updateUrls, urlOnlyDiff]; exact urlFrame_obj old new o

theorem urlFrame_arr (old new : String) :
    ∀ a : JArr, urlOnlyDiffArr old new a (updateUrlsArr old new a) = true
  | .anil => by rw [updateUrlsArr, urlOnlyDiffArr]
  | .acons v rest => by
    rw [updateUrlsArr, urlOnlyDiffArr, urlFrame_val old new v, urlFrame_arr old new rest]
    rfl

theorem urlFrame_field (old new k : String) :
    ∀ v : JVal, urlOnlyDiffField old new k v (updateUrlsField old new k v) = true
  | .str s => by
    by_cases hk : k = "url"
    · rw [updateUrlsField, if_pos hk, urlOnlyDiffField, if_pos hk]
      cases hc : containsSub old.data s.data with
      | true => simp [hc]
      | false =>
        have hrep : pyReplace old new s = s := by
          simp only [pyReplace, replAux_of_not_contains s.data hc]
        simp [hc, hrep]
    · rw [updateUrlsField, if_neg hk, urlOnlyDiffField, if_neg hk]
      exact beq_self_eq_true s
  | .int n => by
    rw [updateUrlsField, urlOnlyDiffField, urlOnlyDiff]
    exact beq_self_eq_true n
  | .bool b => by
    rw [updateUrlsField, urlOnlyDiffField, urlOnlyDiff]
    exact beq_self_eq_true b
  | .null => by
    rw [updateUrlsField, urlOnlyDiffField, urlOnlyDiff]
  | .arr a => by
    rw [updateUrlsField, urlOnlyDiffField, urlOnlyDiff]
    exact urlFrame_arr old new a
  | .obj o => by
    rw [updateUrlsField, urlOnlyDiffField, urlOnlyDiff]
    exact urlFrame_obj old new o

theorem urlFrame_obj (old new : String) :
    ∀ o : JObj, urlOnlyDiffObj old new o (updateUrlsObj old new o) = true
  | .onil => by rw [updateUrlsObj, urlOnlyDiffObj]
  | .ocons k v rest => by
    rw [updateUrlsObj, urlOnlyDiffObj, urlFrame_field old new k v, urlFrame_obj old new rest,
      beq_self_eq_true k]
    rfl
end

/-- C4: the Mirror URL Rewriter changes nothing but string values sitting
under a mapping key literally named `url` that contain the old prefix as a
substring; all other keys and values (nested `files`/`metadata` structures
included, and `url`-keyed strings without the old prefix) come out
unchanged. -/
theorem C4_url_rewriter_frame :
    (∀ (old new : String) (v : JVal), urlOnlyDiff old new v (updateUrls old new v) = true)
    ∧ ∀ v : JVal, urlOnlyDiff OLD_BASE_URL NEW_BASE_URL v (update_urls_in_data v) = true :=
  ⟨fun old new v => urlFrame_val old new v,
   fun v => urlFrame_val OLD_BASE_URL NEW_BASE_URL v⟩

/-!
Duplicate Detector (`utils/check_dupes.py`).

`check_duplicates` walks the fixed family list `["IOL", "QEMU",
"DYNAMIPS"]`; a family key absent from the loaded JSON is skipped with
`continue`.  For a present family it tallies `entry["name"]` over the
entries and `file["checksum"]["md5"]` / `["sha1"]` over every file of every
entry, then keeps exactly the values whose tally exceeds 1.
-/

/-- The checksum part of one file record that the detector reads. -/
structure DFile where
  md5 : String
  sha1 : String

/-- The part of one catalog entry that the detector reads. -/
structure DEntry where
  name : String
  files : List DFile

/-- Occurrence count of a string (`defaultdict(int)` tallying). -/
def countS (x : String) : List String → Nat
  | [] => 0
  | y :: ys => (if y = x then 1 else 0) + countS x ys

/-- Keys in first-occurrence order (iteration order of the tally dict). -/
def dedupFirst : List String → List String
  | [] => []
  | x :: xs => x :: (dedupFirst xs).filter (fun y => y ≠ x)

/-- The `count > 1` collection step, keyed in first-occurrence order. -/
def dupPairs (xs : List String) : List (String × Nat) :=
  (dedupFirst xs).filterMap fun k =>
    if 1 < countS k xs then some (k, countS k xs) else none

/-- The three result mappings the detector builds per family. -/
structure DupResult where
  duplicate_names : List (String × Nat)
  duplicate_md5 : List (String × Nat)
  duplicate_sha1 : List (String × Nat)

def famNames (es : List DEntry) : List String :=
  es.map (fun e => e.name)

def famMd5s (es : List DEntry) : List String :=
  es.flatMap fun e => e.files.map (fun f => f.md5)

def famSha1s (es : List DEntry) : List String :=
  es.flatMap fun e => e.files.map (fun f => f.sha1)

def mkDupResult (es : List DEntry) : DupResult :=
  ⟨dupPairs (famNames es), dupPairs (famMd5s es), dupPairs (famSha1s es)⟩

/-- Python dict lookup on an association list (first binding wins). -/
def lookupA {α : Type} (k : String) : List (String × α) → Option α
  | [] => none
  | (k1, v) :: rest => if k1 = k then some v else lookupA k rest

def deviceTypes : List String := ["IOL", "QEMU", "DYNAMIPS"]

/-- `check_duplicates`: results keyed by family, in the fixed family order,
with absent families skipped. -/
def check_duplicates (data : List (String × List DEntry)) : List (String × DupResult) :=
  deviceTypes.filterMap fun fam =>
    (lookupA fam data).map fun es => (fam, mkDupResult es)

/-- The detector's `main` after file loading: invalid JSON (`none`) returns
early and produces no report. -/
def check_dupes_main (content : Option (List (String × List DEntry))) :
    Option (List (String × DupResult)) :=
  content.map check_duplicates

theorem mem_dedupFirst : ∀ (xs : List String) (x : String), x ∈ dedupFirst xs ↔ x ∈ xs := by
  intro xs
  induction xs with
  | nil => intro x; rfl
  | cons y ys ih =>
    intro x
    by_cases hxy : x = y
    · subst hxy
      simp [dedupFirst]
    · simp [dedupFirst, List.mem_filter, hxy, ih]

theorem countS_pos_iff_mem : ∀ (xs : List String) (x : String), 0 < countS x xs ↔ x ∈ xs := by
  intro xs
  induction xs with
  | nil => intro x; simp [countS]
  | cons y ys ih =>
    intro x
    by_cases hxy : y = x
    · subst hxy
      simp [countS]
    · have hyx : ¬ x = y := fun h => hxy h.symm
      simp [countS, hxy, hyx, ih]

theorem mem_dupPairs {xs : List String} {x : String} {n : Nat} :
    (x, n) ∈ dupPairs xs ↔ (countS x xs = n ∧ 1 < n) := by
  constructor
  · intro h
    rcases List.mem_filterMap.mp h with ⟨k, _, hfk⟩
    by_cases hc : 1 < countS k xs
    · rw [if_pos hc] at hfk
      cases hfk
      exact ⟨rfl, hc⟩
    · rw [if_neg hc] at hfk
      cases hfk
  · rintro ⟨hcount, h1⟩
    refine List.mem_filterMap.mpr ⟨x, ?_, ?_⟩
    · exact (mem_dedupFirst xs x).mpr
        ((countS_pos_iff_mem xs x).mp (by omega))
    · rw [if_pos (by omega), hcount]

theorem lookupA_famFilterMap_of_not_mem {data : List (String × List DEntry)} :
    ∀ (keys : List String) (fam : String), fam ∉ keys →
      lookupA fam (keys.filterMap fun k => (lookupA k data).map fun es => (k, mkDupResult es))
        = none := by
  intro keys
  induction keys with
  | nil => intro fam _; rfl
  | cons k rest ih =>
    intro fam hfam
    have hk : k ≠ fam := fun h => hfam (h ▸ List.mem_cons_self k rest)
    have hrest : fam ∉ rest := fun h => hfam (List.mem_cons_of_mem k h)
    rw [List.filterMap_cons]
    cases hl : lookupA k data with
    | none => exact ih fam hrest
    | some es => simp [lookupA, hk, ih fam hrest]

theorem lookupA_famFilterMap {data : List (String × List DEntry)} :
    ∀ (keys : List String) (fam : String), keys.Nodup → fam ∈ keys →
      lookupA fam (keys.filterMap fun k => (lookupA k data).map fun es => (k, mkDupResult es))
        = (lookupA fam data).map mkDupResult := by
  intro keys
  induction keys with
  | nil => intro fam _ hmem; simp at hmem
  | cons k rest ih =>
    intro fam hnd hmem
    rcases List.nodup_cons.mp hnd with ⟨hknotin, hndrest⟩
    by_cases hk : k = fam
    · subst hk
      cases hl : lookupA k data with
      | none =>
        simp only [List.filterMap_cons, hl, Option.map_none']
        rw [lookupA_famFilterMap_of_not_mem rest k hknotin]
      | some es => simp [List.filterMap_cons, hl, lookupA]
    · have hfamrest : fam ∈ rest := by
        rcases List.mem_cons.mp hmem with h | h
        · exact absurd h.symm hk
        · exact h
      cases hl : lookupA k data with
      | none =>
        simp only [List.filterMap_cons, hl, Option.map_none']
        exact ih fam hndrest hfamrest
      | some es =>
        simp only [List.filterMap_cons, hl, Option.map_some']
        rw [lookupA, if_neg hk]
        exact ih fam hndrest hfamrest

/-- C5: for each of the three families, when present in the unified catalog
the detector returns its three mappings, and a pair `(x, n)` is reported
exactly when `n` is the occurrence count of `x` and `n > 1`; names are
tallied per entry, checksums per file of every entry (`famMd5s`/`famSha1s`
flatten the per-entry file lists).  An absent family is silently skipped. -/
theorem C5_duplicate_detector_counts :
    ∀ (data : List (String × List DEntry)) (fam : String), fam ∈ deviceTypes →
      (∀ es : List DEntry, lookupA fam data = some es →
        lookupA fam (check_duplicates data) = some (mkDupResult es)
        ∧ (∀ (x : String) (n : Nat),
            (x, n) ∈ (mkDupResult es).duplicate_names ↔ (countS x (famNames es) = n ∧ 1 < n))
        ∧ (∀ (x : String) (n : Nat),
            (x, n) ∈ (mkDupResult es).duplicate_md5 ↔ (countS x (famMd5s es) = n ∧ 1 < n))
        ∧ (∀ (x : String) (n : Nat),
            (x, n) ∈ (mkDupResult es).duplicate_sha1 ↔ (countS x (famSha1s es) = n ∧ 1 < n)))
      ∧ (lookupA fam data = none → lookupA fam (check_duplicates data) = none) := by
  intro data fam hfam
  have hnd : deviceTypes.Nodup := by decide
  constructor
  · intro es hes
    refine ⟨?_, fun x n => mem_dupPairs, fun x n => mem_dupPairs, fun x n => mem_dupPairs⟩
    rw [check_duplicates, lookupA_famFilterMap deviceTypes fam hnd hfam, hes]
    rfl
  · intro hnone
    rw [check_duplicates, lookupA_famFilterMap deviceTypes fam hnd hfam, hnone]
    rfl

def exC5entries : List DEntry :=
  [⟨"a", [⟨"m1", "s1"⟩]⟩, ⟨"a", [⟨"m1", "s2"⟩]⟩]

def exC5 : List (String × List DEntry) := [("QEMU", exC5entries)]

theorem C5_witness :
    lookupA "QEMU" (check_duplicates exC5) = some (mkDupResult exC5entries)
    ∧ (("a", 2) ∈ (mkDupResult exC5entries).duplicate_names
        ↔ (countS "a" (famNames exC5entries) = 2 ∧ 1 < 2)) := by
  have h := (C5_duplicate_detector_counts exC5 "QEMU" (by decide)).1 exC5entries rfl
  exact ⟨h.1, h.2.1 "a" 2⟩

/-- The two stored name forms differing only in case. -/
def routerEntries : List DEntry := [⟨"Router", []⟩, ⟨"router", []⟩]

def routerData : List (String × List DEntry) := [("IOL", routerEntries)]

/-- C6 is false as stated: for a family holding exactly the entries
"Router" and "router" the detector reports NO duplicate name at all —
`name_counts[entry["name"]]` keys the tally by the exact stored string, so
the two case-variants are distinct keys with count 1 each. -/
theorem C6_counterexample :
    (mkDupResult routerEntries).duplicate_names = []
    ∧ check_duplicates routerData = [("IOL", mkDupResult routerEntries)] :=
  ⟨rfl, rfl⟩

/-- C6 (amended): duplicate-name comparison is case-sensitive (exact string
equality on the stored form): two entries whose names differ at all — in
particular "Router" vs "router" — produce no duplicate-name report. -/
theorem C6_amended_case_sensitive_dupes :
    ∀ (n1 n2 : String) (f1 f2 : List DFile), n1 ≠ n2 →
      (mkDupResult [⟨n1, f1⟩, ⟨n2, f2⟩]).duplicate_names = [] := by
  intro n1 n2 f1 f2 hne
  have h1 : countS n1 [n1, n2] = 1 := by simp [countS, Ne.symm hne]
  have h2 : countS n2 [n1, n2] = 1 := by simp [countS, hne]
  show dupPairs (famNames [⟨n1, f1⟩, ⟨n2, f2⟩]) = []
  have hfn : famNames [⟨n1, f1⟩, ⟨n2, f2⟩] = [n1, n2] := rfl
  rw [hfn]
  refine List.filterMap_eq_nil_iff.mpr ?_
  intro k hk
  have hk2 : k = n1 ∨ k = n2 := by
    have hm := (mem_dedupFirst [n1, n2] k).mp hk
    simpa using hm
  rcases hk2 with h | h
  · rw [if_neg (by rw [h, h1]; omega)]
  · rw [if_neg (by rw [h, h2]; omega)]

theorem C6_witness :
    (mkDupResult [⟨"Router", ([] : List DFile)⟩, ⟨"router", ([] : List DFile)⟩]).duplicate_names
      = [] :=
  C6_amended_case_sensitive_dupes "Router" "router" [] [] (by decide)

/-- C9: a file whose contents are not valid JSON makes the sorter's
`process_file` return `False` with the file contents untouched (nothing is
written), and makes the duplicate checker's `main` return without
producing any report. -/
theorem C9_invalid_json_no_write :
    process_file none = (false, none) ∧ check_dupes_main none = none :=
  ⟨rfl, rfl⟩

/-!
Human-readable sizes (`scripts/qemu/index.py` `convert_size_human_readable`
and `scripts/dynamips/index.py` `sizeof_fmt` — the two functions are
textually identical).

The Python loop divides the byte count by 1024.0 until it drops below 1024
and prints `"%3.1f %s%s" % (num, unit, suffix)` with the default suffix
"B".  Division by 1024 only shifts a float's binary exponent, so for byte
counts below 2^53 every intermediate float is exactly `n / 1024^k`; the
model therefore carries the exact value as an integer numerator over the
denominator `1024^k`.  `%.1f` prints the correctly rounded single decimal
(ties to even), and the minimum width 3 never pads a nonnegative size.
-/

/-- Round `a / b` (with `b > 0`) to the nearest integer, ties to even:
the rounding used by `%.1f`. -/
def roundHalfEvenD (a b : ℤ) : ℤ :=
  let f := Int.fdiv a b
  let r := a - f * b
  if 2 * r < b then f
  else if b < 2 * r then f + 1
  else if f % 2 = 0 then f else f + 1

/-- Rendering of `"%.1f"` for the nonnegative value `num / den`. -/
def renderFixed1 (num den : ℤ) : String :=
  let n := roundHalfEvenD (num * 10) den
  toString (n / 10) ++ "." ++ toString (n % 10)

def hsUnits : List String := ["", "Ki", "Mi", "Gi", "Ti", "Pi", "Ei", "Zi"]

/-- The unit loop of `convert_size_human_readable` / `sizeof_fmt`; the
running float value is `num / den` with `den` the power `1024^k`, so
`abs(value) < 1024.0` is `|num| < 1024 * den` and `value /= 1024.0`
multiplies `den` by 1024. -/
def sizeLoop (suffix : String) : ℤ → ℤ → List String → String
  | num, den, [] => renderFixed1 num den ++ " " ++ "Yi" ++ suffix
  | num, den, u :: us =>
    if |num| < 1024 * den then renderFixed1 num den ++ " " ++ u ++ suffix
    else sizeLoop suffix num (den * 1024) us

def convert_size_human_readable (numBytes : ℤ) (suffix : String) : String :=
  sizeLoop suffix numBytes 1 hsUnits

/-- `sizeof_fmt` in the dynamips script is the same function. -/
def sizeof_fmt (num : ℤ) (suffix : String) : String :=
  convert_size_human_readable num suffix

/-- C7 is false as stated: the rendering of 1024 bytes is "1.0 KiB", not
"1.0 Ki" — the format string appends the default suffix "B" after the
binary unit. -/
theorem C7_counterexample :
    convert_size_human_readable 1024 "B" ≠ "1.0 Ki" := by
  decide

/-- C7 (amended): the human-size rendering is a pure function of the byte
count using the 1024-based units "", Ki, Mi, Gi, Ti, Pi, Ei, Zi, Yi with
one decimal digit and the suffix "B"; 1024 bytes render as "1.0 KiB" and
1073741824 bytes as "1.0 GiB", and the two scripts' functions agree. -/
theorem C7_amended_human_size :
    convert_size_human_readable 1024 "B" = "1.0 KiB"
    ∧ convert_size_human_readable 1073741824 "B" = "1.0 GiB"
    ∧ ∀ (q : ℤ) (s : String), sizeof_fmt q s = convert_size_human_readable q s := by
  exact ⟨by decide, by decide, fun q s => rfl⟩

/-!
Checksum Resolver (`lookup_hash` in the per-family index scripts).

The manifest is a text file of lines `<hash><two spaces><path>`;
`lookup_hash` opens it (a missing file is caught and yields ""), scans the
lines in order, skips blank lines and lines without a double-space
separator, normalizes backslashes in the path column to forward slashes,
and returns the hash of the first line whose path equals the query; if no
line matches it returns "".  Strings here are character lists; `none` for
the manifest models `FileNotFoundError`.
-/

/-- Characters removed by Python `str.strip()`. -/
def isPyWs (c : Char) : Bool :=
  c = ' ' || c = '\t' || c = '\n' || c = '\r' || c = '\x0B' || c = '\x0C'

/-- Python `line.strip()`. -/
def pyStrip (s : List Char) : List Char :=
  ((s.dropWhile isPyWs).reverse.dropWhile isPyWs).reverse

/-- Python `line.split('  ', 1)` restricted to the two-part result: split at
the first double space, keeping any further spaces in the path column. -/
def splitTwoSpace : List Char → Option (List Char × List Char)
  | ' ' :: ' ' :: rest => some ([], rest)
  | c :: rest => (splitTwoSpace rest).map fun p => (c :: p.1, p.2)
  | [] => none

/-- Path-separator normalization `hash_file_path.replace('\\', '/')`. -/
def normSlash (s : List Char) : List Char :=
  s.map fun c => if c = '\\' then '/' else c

/-- One manifest line: `none` when the line is blank after stripping or has
no double-space separator (such lines are skipped). -/
def parseManifestLine (line : List Char) : Option (List Char × List Char) :=
  let l := pyStrip line
  if l = [] then none
  else (splitTwoSpace l).map fun p => (p.1, normSlash p.2)

/-- The scan loop of `lookup_hash`. -/
def lookupScan (relPath : List Char) : List (List Char) → List Char
  | [] => []
  | line :: rest =>
    match parseManifestLine line with
    | some pq => if pq.2 = relPath then pq.1 else lookupScan relPath rest
    | none => lookupScan relPath rest

/-- `lookup_hash`: `none` for the manifest models a missing file
(`FileNotFoundError` is caught); the result "" (here `[]`) is the
unresolved-checksum sentinel. -/
def lookup_hash (manifest : Option (List (List Char))) (relPath : List Char) : List Char :=
  match manifest with
  | none => []
  | some lines => lookupScan relPath lines

/-- C8: the Checksum Resolver is total — a missing manifest yields "", and
on an existing manifest the result is the hash of the first parseable line
whose normalized path equals the query, or "" when no line matches (in
particular for any path absent from the manifest). -/
theorem C8_lookup_hash_total :
    (∀ p : List Char, lookup_hash none p = [])
    ∧ ∀ (lines : List (List Char)) (p : List Char),
        lookup_hash (some lines) p
          = ((((lines.filterMap parseManifestLine).find? fun q => q.2 = p).map
              fun q => q.1).getD []) := by
  refine ⟨fun p => rfl, fun lines p => ?_⟩
  induction lines with
  | nil => rfl
  | cons line rest ih =>
    show lookupScan p (line :: rest) = _
    rw [List.filterMap_cons]
    cases hl : parseManifestLine line with
    | none => rw [lookupScan, hl]; exact ih
    | some pq =>
      rw [lookupScan, hl]
      show (if pq.2 = p then pq.1 else lookupScan p rest)
        = ((((pq :: rest.filterMap parseManifestLine).find? fun q => q.2 = p).map
            fun q => q.1).getD [])
      by_cases hp : pq.2 = p
      · rw [if_pos hp, List.find?_cons_of_pos _ (by simpa using hp)]
        rfl
      · rw [if_neg hp, List.find?_cons_of_neg _ (by simpa using hp)]
        exact ih
